import Mathlib

/-!
Verification of the `proc-lineq` closure-inversion library.

This file shallowly embeds the core of `src/src/lib.rs`: the expression
validator `validate_expr`, the containment check `check_contains_target`,
the operator-inversion table `inverse_bin_op`, the parenthesization helper
`parenthesize`, the recursive inversion `parse_expr`, and the entry point
`solve` of `ClosureInverter`.

Modelling decisions, each matched against the Rust source:
- `syn::Expr` is restricted to the node kinds the library inspects:
  `Lit` (integer literal), `Path` (a bare identifier; the `attrs`/`qself`
  checks of `parse_path` are abstracted into the identifier itself),
  `Binary`, and the two unsupported kinds the source names explicitly,
  `Paren` and `Unary`.  `Paren` is also what `parse_quote!((#e))` builds
  in `parenthesize`.
- `syn::BinOp` is restricted to `Add`, `Sub`, `Mul`, `Div` plus a single
  representative `other` for every remaining variant, all of which the
  source treats alike through wildcard arms.  Spans carried by tokens are
  metadata and are dropped.
- Rust `Result<_, ParseError>` becomes `PResult`; the `unimplemented!()`
  macro invocations in `parse_expr` and `check_contains_target` are modelled
  by the extra outcome `PResult.unimpl` (a panic aborts the whole call, so
  it propagates through `PResult.bind` exactly like an error).
- The mutation of `self.target_expr` is turned into explicit accumulator
  passing: `parse_expr` receives the current accumulator and returns the
  final one on success.
- Numeric semantics for the round-trip property are exact rational
  semantics (`evalQ` over `ℚ`), with `none` for division by zero and for
  unsupported nodes; this follows the spec's real-valued reading that
  excludes integer truncation.
-/

/-- Binary operators: the four the library supports, plus one
representative constructor for every other `syn::BinOp` variant
(`Rem`, `BitAnd`, `Shl`, ...), which the Rust source handles uniformly
through wildcard match arms. -/
inductive BinOp where
  | add
  | sub
  | mul
  | div
  | other
  deriving DecidableEq

/-- Expression trees, mirroring the subset of `syn::Expr` the library
inspects.  `lit` is `Expr::Lit` with an integer literal, `path` is
`Expr::Path` carrying its identifier, `binary` is `Expr::Binary`,
`paren` is `Expr::Paren` and `unary` is `Expr::Unary` (both unsupported
node kinds named in `check_contains_target`). -/
inductive Expr where
  | lit : Int → Expr
  | path : String → Expr
  | binary : BinOp → Expr → Expr → Expr
  | paren : Expr → Expr
  | unary : Expr → Expr
  deriving DecidableEq

/-- The error taxonomy `ParseError` of the library. -/
inductive ParseError where
  | binOp
  | multiple
  | noSolveFor
  | unexpectedIdentifier
  | validation
  deriving DecidableEq

/-- Outcome of a fallible library call: `ok`/`err` mirror Rust's
`Result`, and `unimpl` models a panic raised by `unimplemented!()`. -/
inductive PResult (α : Type) where
  | ok : α → PResult α
  | err : ParseError → PResult α
  | unimpl : PResult α
  deriving DecidableEq

/-- Sequencing of fallible calls: errors short-circuit (Rust `?`), and a
panic propagates past everything. -/
def PResult.bind {α β : Type} : PResult α → (α → PResult β) → PResult β
  | .ok a, f => f a
  | .err e, _ => .err e
  | .unimpl, _ => .unimpl

/-- Rust `ClosureInverter::parse_path`: a path matches the target
identifier when it is a bare, unqualified identifier equal to it.  The
`attrs`/`qself` structure of `syn::ExprPath` is abstracted into the
identifier string. -/
def parse_path (p target : String) : Bool :=
  decide (p = target)

/-- Rust `ClosureInverter::validate_expr`: true iff every node is a
literal, a path, or a binary operation over valid children. -/
def validate_expr : Expr → Bool
  | .binary _ l r => validate_expr l && validate_expr r
  | .lit _ => true
  | .path _ => true
  | _ => false

/-- Rust `ClosureInverter::check_contains_target`: whether the target
identifier occurs in the subtree.  `||` short-circuits, and the `Paren`,
`Unary` and wildcard arms call `unimplemented!()`. -/
def check_contains_target : Expr → String → PResult Bool
  | .binary _ l r, target =>
      (check_contains_target l target).bind fun cl =>
        if cl then .ok true else check_contains_target r target
  | .lit _, _ => .ok false
  | .paren _, _ => .unimpl
  | .path p, target => .ok (parse_path p target)
  | .unary _, _ => .unimpl

/-- Rust `ClosureInverter::build_expr_binary`. -/
def build_expr_binary (left : Expr) (op : BinOp) (right : Expr) : Expr :=
  Expr.binary op left right

/-- Rust `ClosureInverter::parenthesize`: literals and paths are returned
unchanged; a composite accumulator is wrapped in a `Paren` node exactly
when the wrapping operator is `Mul` or `Div`; any other wrapping operator
on a composite accumulator is a `BinOp` error. -/
def parenthesize (e : Expr) (target_op : BinOp) : PResult Expr :=
  match e with
  | .lit n => .ok (.lit n)
  | .path p => .ok (.path p)
  | _ =>
      match target_op with
      | .add | .sub => .ok e
      | .mul | .div => .ok (.paren e)
      | .other => .err .binOp

/-- Rust `inverse_bin_op`: the operator-inversion table.  The span
argument only decorates the produced token and is dropped. -/
def inverse_bin_op : BinOp → PResult BinOp
  | .add => .ok .sub
  | .sub => .ok .add
  | .mul => .ok .div
  | .div => .ok .mul
  | .other => .err .binOp

/-- Rust `ClosureInverter::parse_expr`, with the `self.target_expr`
mutation made explicit: `parse_expr sf acc e` runs the inversion of `e`
starting from accumulator `acc` and returns the final accumulator.  Note
that `inverse_bin_op` is consulted (and can fail) before the containment
dispatch, and that the `(false, true)` arm re-dispatches on the original
operator. -/
def parse_expr (sf : String) : Expr → Expr → PResult Expr
  | acc, .binary op l r =>
      (check_contains_target l sf).bind fun left =>
      (check_contains_target r sf).bind fun right =>
      (inverse_bin_op op).bind fun inverted_op =>
      match left, right with
      | true, false =>
          (parenthesize acc inverted_op).bind fun p =>
            parse_expr sf (build_expr_binary p inverted_op r) l
      | false, true =>
          match op with
          | .add | .mul =>
              (parenthesize acc inverted_op).bind fun p =>
                parse_expr sf (build_expr_binary p inverted_op l) r
          | .sub | .div =>
              (parenthesize acc op).bind fun p =>
                parse_expr sf (build_expr_binary l op p) r
          | .other => .err .binOp
      | true, true => .err .multiple
      | false, false => .err .noSolveFor
  | acc, .path p => if parse_path p sf then .ok acc else .err .unexpectedIdentifier
  | _, .lit _ => .unimpl
  | _, .paren _ => .unimpl
  | _, .unary _ => .unimpl

/-- The closure returned by `solve`: a single parameter (the target
placeholder) and the inverse expression body. -/
structure ClosureOut where
  param : String
  body : Expr
  deriving DecidableEq

/-- Rust `ClosureInverter::solve` composed with `ClosureInverter::new`:
validate the body, run `parse_expr` on it with the initial accumulator
`target_ident` (a bare path), and wrap the final accumulator in a
one-parameter closure. -/
def solve (solve_for target_ident : String) (body : Expr) : PResult ClosureOut :=
  if validate_expr body then
    (parse_expr solve_for (.path target_ident) body).bind fun f =>
      .ok ⟨target_ident, f⟩
  else
    .err .validation

/-! Statement-level helpers: measures and predicates used to state the
claims, defined over the same expression type. -/

/-- Number of occurrences of identifier `v` among the leaves of `e`. -/
def countOcc (v : String) : Expr → Nat
  | .lit _ => 0
  | .path s => if s = v then 1 else 0
  | .binary _ l r => countOcc v l + countOcc v r
  | .paren e => countOcc v e
  | .unary e => countOcc v e

/-- Depth of an expression tree (leaves have depth zero). -/
def depth : Expr → Nat
  | .lit _ => 0
  | .path _ => 0
  | .binary _ l r => 1 + max (depth l) (depth r)
  | .paren e => 1 + depth e
  | .unary e => 1 + depth e

/-- Whether an operator is one of the four the library supports. -/
def BinOp.supported : BinOp → Bool
  | .other => false
  | _ => true

/-- Whether `e` is built from literals, paths and binary nodes whose
operators are all supported. -/
def opsOK : Expr → Bool
  | .lit _ => true
  | .path _ => true
  | .binary op l r => op.supported && opsOK l && opsOK r
  | .paren _ => false
  | .unary _ => false

/-- Whether `e` is built only from literals, supported binary operators,
and occurrences of the single identifier `sf`. -/
def builtFrom (sf : String) : Expr → Bool
  | .lit _ => true
  | .path s => decide (s = sf)
  | .binary op l r => op.supported && builtFrom sf l && builtFrom sf r
  | .paren _ => false
  | .unary _ => false

/-- Exact rational meaning of one binary operator; division by zero and
unsupported operators are undefined. -/
def opApply (op : BinOp) (a b : ℚ) : Option ℚ :=
  match op with
  | .add => some (a + b)
  | .sub => some (a - b)
  | .mul => some (a * b)
  | .div => if b = 0 then none else some (a / b)
  | .other => none

/-- Exact rational evaluation of an expression under an environment for
its identifiers: literals and paths are total, a binary node is defined
when both children and the operator application are, a grouping node is
transparent, and unsupported nodes are undefined. -/
def evalQ (env : String → ℚ) : Expr → Option ℚ
  | .lit n => some (n : ℚ)
  | .path s => some (env s)
  | .binary op l r =>
      (evalQ env l).bind fun a => (evalQ env r).bind fun b => opApply op a b
  | .paren e => evalQ env e
  | .unary _ => none

/-- Environment binding identifier `x` to `v` and everything else to 0. -/
def envFor (x : String) (v : ℚ) : String → ℚ :=
  fun n => if n = x then v else 0

/-- Sequencing used by the fuelled variant of `parse_expr`: a library
error or panic is a finished outcome, while running out of fuel is
`none`. -/
def liftP {α β : Type} : PResult α → (α → Option (PResult β)) → Option (PResult β)
  | .ok a, f => f a
  | .err e, _ => some (.err e)
  | .unimpl, _ => some (.unimpl)

/-- Fuelled variant of `parse_expr`, consuming one unit of fuel per
recursive call; `none` means the fuel ran out before the recursion
finished. -/
def parseExprFuel (sf : String) : Nat → Expr → Expr → Option (PResult Expr)
  | 0, _, _ => none
  | fuel + 1, acc, e =>
      match e with
      | .binary op l r =>
          liftP (check_contains_target l sf) fun left =>
          liftP (check_contains_target r sf) fun right =>
          liftP (inverse_bin_op op) fun inverted_op =>
          match left, right with
          | true, false =>
              liftP (parenthesize acc inverted_op) fun p =>
                parseExprFuel sf fuel (build_expr_binary p inverted_op r) l
          | false, true =>
              match op with
              | .add | .mul =>
                  liftP (parenthesize acc inverted_op) fun p =>
                    parseExprFuel sf fuel (build_expr_binary p inverted_op l) r
              | .sub | .div =>
                  liftP (parenthesize acc op) fun p =>
                    parseExprFuel sf fuel (build_expr_binary l op p) r
              | .other => some (.err .binOp)
          | true, true => some (.err .multiple)
          | false, false => some (.err .noSolveFor)
      | .path p => some (if parse_path p sf then .ok acc else .err .unexpectedIdentifier)
      | .lit _ => some .unimpl
      | .paren _ => some .unimpl
      | .unary _ => some .unimpl

/-- Modelled from the spec (section 4.1): a tree is valid iff every
reachable node is a `Literal`, a `Variable` (any identifier), or a
`BinaryOp` whose children are themselves valid. -/
inductive ValidSpec : Expr → Prop where
  | lit : ∀ n, ValidSpec (.lit n)
  | path : ∀ s, ValidSpec (.path s)
  | binary : ∀ op l r, ValidSpec l → ValidSpec r → ValidSpec (.binary op l r)

/-- Whether an expression is a literal or a bare path: the accumulator
shapes that `parenthesize` returns unchanged without inspecting the
wrapping operator. -/
def isLeafAcc : Expr → Bool
  | .lit _ => true
  | .path _ => true
  | _ => false

/-! Basic lemmas about the embedding. -/

@[simp]
theorem PResult.bind_ok {α β : Type} (a : α) (f : α → PResult β) :
    PResult.bind (.ok a) f = f a := rfl

@[simp]
theorem PResult.bind_err {α β : Type} (e : ParseError) (f : α → PResult β) :
    PResult.bind (.err e) f = .err e := rfl

@[simp]
theorem PResult.bind_unimpl {α β : Type} (f : α → PResult β) :
    PResult.bind (.unimpl : PResult α) f = .unimpl := rfl

/-- An expression built from literals and the single identifier `sf` over
supported operators passes validation. -/
theorem builtFrom_validate (sf : String) :
    ∀ e : Expr, builtFrom sf e = true → validate_expr e = true
  | .lit _, _ => rfl
  | .path _, _ => rfl
  | .binary op l r, h => by
      have h' : (BinOp.supported op = true ∧ builtFrom sf l = true) ∧ builtFrom sf r = true := by
        simpa [builtFrom, Bool.and_eq_true] using h
      simp [validate_expr, builtFrom_validate sf l h'.1.2, builtFrom_validate sf r h'.2]
  | .paren _, h => by simp [builtFrom] at h
  | .unary _, h => by simp [builtFrom] at h

/-- An expression whose operators are all supported passes validation. -/
theorem opsOK_validate :
    ∀ e : Expr, opsOK e = true → validate_expr e = true
  | .lit _, _ => rfl
  | .path _, _ => rfl
  | .binary op l r, h => by
      have h' : (BinOp.supported op = true ∧ opsOK l = true) ∧ opsOK r = true := by
        simpa [opsOK, Bool.and_eq_true] using h
      simp [validate_expr, opsOK_validate l h'.1.2, opsOK_validate r h'.2]
  | .paren _, h => by simp [opsOK] at h
  | .unary _, h => by simp [opsOK] at h

/-- On a validated subtree, the containment check never panics and decides
whether the identifier occurs at least once among the leaves. -/
theorem contains_ok (sf : String) :
    ∀ e : Expr, validate_expr e = true →
      check_contains_target e sf = .ok (decide (0 < countOcc sf e))
  | .lit _, _ => by simp [check_contains_target, countOcc]
  | .path s, _ => by
      by_cases h : s = sf <;>
        simp [check_contains_target, countOcc, parse_path, h]
  | .binary op l r, hv => by
      have hv' : validate_expr l = true ∧ validate_expr r = true := by
        simpa [validate_expr, Bool.and_eq_true] using hv
      have hl := contains_ok sf l hv'.1
      have hr := contains_ok sf r hv'.2
      by_cases h1 : 0 < countOcc sf l
      · have : 0 < countOcc sf (.binary op l r) := by
          simp [countOcc]; omega
        simp [check_contains_target, hl, hr, h1, this]
      · have h1' : countOcc sf l = 0 := by omega
        simp [check_contains_target, hl, hr, h1, countOcc, h1']
  | .paren _, hv => by simp [validate_expr] at hv
  | .unary _, hv => by simp [validate_expr] at hv

/-- A subtree built from literals and `sf` in which `sf` does not occur is
closed, so its exact evaluation does not depend on the environment. -/
theorem closed_eval (sf : String) :
    ∀ e : Expr, builtFrom sf e = true → countOcc sf e = 0 →
      ∀ env env' : String → ℚ, evalQ env e = evalQ env' e
  | .lit _, _, _, _, _ => rfl
  | .path s, hb, hc, _, _ => by
      have hs : s = sf := by simpa [builtFrom] using hb
      simp [countOcc, hs] at hc
  | .binary op l r, hb, hc, env, env' => by
      have hb' : (BinOp.supported op = true ∧ builtFrom sf l = true) ∧ builtFrom sf r = true := by
        simpa [builtFrom, Bool.and_eq_true] using hb
      have hc' : countOcc sf l = 0 ∧ countOcc sf r = 0 := by
        constructor <;> (simp [countOcc] at hc; omega)
      have ihl := closed_eval sf l hb'.1.2 hc'.1 env env'
      have ihr := closed_eval sf r hb'.2 hc'.2 env env'
      simp [evalQ, ihl, ihr]
  | .paren _, hb, _, _, _ => by simp [builtFrom] at hb
  | .unary _, hb, _, _, _ => by simp [builtFrom] at hb

/-- For a supported wrapping operator, `parenthesize` always succeeds, and
the result has the same exact value and the same identifier counts as the
original accumulator. -/
theorem parenthesize_ok (acc : Expr) (op : BinOp) (hop : op.supported = true) :
    ∃ p, parenthesize acc op = .ok p ∧ (∀ env, evalQ env p = evalQ env acc) ∧
      ∀ t, countOcc t p = countOcc t acc := by
  cases acc <;> cases op <;>
    simp only [BinOp.supported, Bool.false_eq_true] at hop <;>
    exact ⟨_, rfl, fun env => rfl, fun t => rfl⟩

/-- Whenever `parenthesize` succeeds it preserves identifier counts. -/
theorem parenthesize_count (t : String) (acc p : Expr) (op : BinOp)
    (h : parenthesize acc op = .ok p) : countOcc t p = countOcc t acc := by
  cases acc <;> cases op <;>
    simp only [parenthesize, PResult.ok.injEq, reduceCtorEq] at h <;>
    first
      | exact absurd h (by simp)
      | (subst h; simp [countOcc])

/-- Destructuring a defined binary evaluation. -/
theorem evalQ_binary_some (env : String → ℚ) (op : BinOp) (l r : Expr) (w : ℚ)
    (h : evalQ env (.binary op l r) = some w) :
    ∃ a b, evalQ env l = some a ∧ evalQ env r = some b ∧ opApply op a b = some w := by
  simp only [evalQ, Option.bind_eq_some] at h
  obtain ⟨a, ha, b, hb, hab⟩ := h
  exact ⟨a, b, ha, hb, hab⟩

/-- Every supported operator has a supported inverse. -/
theorem inverse_of_supported (op : BinOp) (hop : op.supported = true) :
    ∃ iop : BinOp, inverse_bin_op op = .ok iop ∧ iop.supported = true := by
  cases op <;> simp_all [BinOp.supported, inverse_bin_op]

/-- Algebra of the left-containment step: applying the inverted operator
with the original right value undoes the original operation. -/
theorem inv_left_step {op iop : BinOp} (h : inverse_bin_op op = .ok iop)
    {wl wr w a b : ℚ} (h1 : opApply op wl wr = some w)
    (h2 : opApply iop a wr = some b) (haw : a = w) : b = wl := by
  rw [haw] at h2
  cases op with
  | add =>
      simp only [inverse_bin_op, PResult.ok.injEq] at h
      subst h
      simp only [opApply, Option.some.injEq] at h1 h2
      linarith
  | sub =>
      simp only [inverse_bin_op, PResult.ok.injEq] at h
      subst h
      simp only [opApply, Option.some.injEq] at h1 h2
      linarith
  | mul =>
      simp only [inverse_bin_op, PResult.ok.injEq] at h
      subst h
      simp only [opApply, Option.some.injEq] at h1
      simp only [opApply] at h2
      by_cases hr0 : wr = 0
      · rw [if_pos hr0] at h2
        cases h2
      · rw [if_neg hr0] at h2
        simp only [Option.some.injEq] at h2
        rw [← h2, ← h1]
        exact mul_div_cancel_right₀ wl hr0
  | div =>
      simp only [inverse_bin_op, PResult.ok.injEq] at h
      subst h
      simp only [opApply] at h1
      by_cases hr0 : wr = 0
      · rw [if_pos hr0] at h1
        cases h1
      · rw [if_neg hr0] at h1
        simp only [Option.some.injEq] at h1
        simp only [opApply, Option.some.injEq] at h2
        rw [← h2, ← h1]
        exact div_mul_cancel₀ wl hr0
  | other => cases h

/-- Algebra of the right-containment step for a commutative operator. -/
theorem inv_right_comm {op iop : BinOp} (h : inverse_bin_op op = .ok iop)
    (hc : op = .add ∨ op = .mul)
    {wl wr w a b : ℚ} (h1 : opApply op wl wr = some w)
    (h2 : opApply iop a wl = some b) (haw : a = w) : b = wr := by
  rw [haw] at h2
  rcases hc with hc | hc <;> subst hc
  · simp only [inverse_bin_op, PResult.ok.injEq] at h
    subst h
    simp only [opApply, Option.some.injEq] at h1 h2
    linarith
  · simp only [inverse_bin_op, PResult.ok.injEq] at h
    subst h
    simp only [opApply, Option.some.injEq] at h1
    simp only [opApply] at h2
    by_cases hl0 : wl = 0
    · rw [if_pos hl0] at h2
      cases h2
    · rw [if_neg hl0] at h2
      simp only [Option.some.injEq] at h2
      rw [← h2, ← h1]
      exact mul_div_cancel_left₀ wr hl0

/-- Algebra of the right-containment step for a non-commutative operator:
the original operator with the original left value undoes itself. -/
theorem inv_right_noncomm {op : BinOp} (hc : op = .sub ∨ op = .div)
    {wl wr w a b : ℚ} (h1 : opApply op wl wr = some w)
    (h2 : opApply op wl a = some b) (haw : a = w) : b = wr := by
  rw [haw] at h2
  rcases hc with hc | hc <;> subst hc
  · simp only [opApply, Option.some.injEq] at h1 h2
    linarith
  · simp only [opApply] at h1 h2
    by_cases hr0 : wr = 0
    · rw [if_pos hr0] at h1
      cases h1
    · rw [if_neg hr0] at h1
      simp only [Option.some.injEq] at h1
      by_cases h00 : w = 0
      · rw [if_pos h00] at h2
        cases h2
      · rw [if_neg h00] at h2
        simp only [Option.some.injEq] at h2
        have hl0 : wl ≠ 0 := by
          intro hwl
          apply h00
          rw [← h1, hwl, zero_div]
        rw [← h2, ← h1, div_div_eq_mul_div]
        exact mul_div_cancel_left₀ wr hl0

/-- Core soundness of the inversion: on an input built from literals and
exactly one occurrence of `sf` over supported operators, `parse_expr`
succeeds from any accumulator, and the final accumulator evaluates back
through the initial one: whenever the final accumulator is defined and
the initial accumulator takes the value of the whole subtree, the result
is the value assigned to `sf`. -/
theorem parse_sound (sf : String) :
    ∀ e : Expr, ∀ acc : Expr, builtFrom sf e = true → countOcc sf e = 1 →
      ∃ F, parse_expr sf acc e = .ok F ∧
        ∀ (v : ℚ) (envT : String → ℚ) (w : ℚ),
          evalQ (envFor sf v) e = some w →
          ∀ u : ℚ, evalQ envT F = some u →
            ∃ a : ℚ, evalQ envT acc = some a ∧ (a = w → u = v) := by
  intro e
  induction e with
  | lit n =>
      intro acc hb hc
      simp [countOcc] at hc
  | paren e ih =>
      intro acc hb hc
      simp [builtFrom] at hb
  | unary e ih =>
      intro acc hb hc
      simp [builtFrom] at hb
  | path s =>
      intro acc hb hc
      have hs : s = sf := by simpa [builtFrom] using hb
      subst hs
      refine ⟨acc, by simp [parse_expr, parse_path], ?_⟩
      intro v envT w he u hu
      have hw : v = w := by simpa [evalQ, envFor] using he
      exact ⟨u, hu, fun hau => by rw [hau, ← hw]⟩
  | binary op l r ihl ihr =>
      intro acc hb hc
      have hb' : (BinOp.supported op = true ∧ builtFrom sf l = true) ∧ builtFrom sf r = true := by
        simpa [builtFrom, Bool.and_eq_true] using hb
      obtain ⟨⟨hop, hbl⟩, hbr⟩ := hb'
      have hcc : countOcc sf l + countOcc sf r = 1 := by simpa [countOcc] using hc
      have hchl := contains_ok sf l (builtFrom_validate sf l hbl)
      have hchr := contains_ok sf r (builtFrom_validate sf r hbr)
      rcases Nat.lt_or_ge 0 (countOcc sf l) with h1 | h1
      · -- the unknown is in the left child
        have hcl : countOcc sf l = 1 := by omega
        have hcr : countOcc sf r = 0 := by omega
        have hchl' : check_contains_target l sf = .ok true := by
          rw [hchl, hcl]; norm_num
        have hchr' : check_contains_target r sf = .ok false := by
          rw [hchr, hcr]; norm_num
        obtain ⟨iop, hiop, hiops⟩ := inverse_of_supported op hop
        obtain ⟨p, hp, hpe, hpc⟩ := parenthesize_ok acc iop hiops
        obtain ⟨F, hF, hsem⟩ := ihl (.binary iop p r) hbl hcl
        refine ⟨F, ?_, ?_⟩
        · simp only [parse_expr, hchl', hchr', hiop, hp, PResult.bind_ok,
            build_expr_binary]
          exact hF
        · intro v envT w he u hu
          obtain ⟨wl, wr, hel, her, hOp⟩ := evalQ_binary_some _ op l r w he
          obtain ⟨a2, ha2, himp⟩ := hsem v envT wl hel u hu
          obtain ⟨aP, bR, hAP, hBR, hOp2⟩ := evalQ_binary_some envT iop p r a2 ha2
          have haccA : evalQ envT acc = some aP := by
            rw [← hpe envT]; exact hAP
          have hbr_eq : bR = wr := by
            rw [closed_eval sf r hbr hcr envT (envFor sf v), her] at hBR
            exact (Option.some.inj hBR).symm
          refine ⟨aP, haccA, fun haw => himp ?_⟩
          rw [hbr_eq] at hOp2
          exact inv_left_step hiop hOp hOp2 haw
      · -- the unknown is in the right child
        have hcl : countOcc sf l = 0 := by omega
        have hcr : countOcc sf r = 1 := by omega
        have hchl' : check_contains_target l sf = .ok false := by
          rw [hchl, hcl]; norm_num
        have hchr' : check_contains_target r sf = .ok true := by
          rw [hchr, hcr]; norm_num
        obtain ⟨iop, hiop, hiops⟩ := inverse_of_supported op hop
        cases op with
        | other => simp [BinOp.supported] at hop
        | add =>
            obtain ⟨p, hp, hpe, hpc⟩ := parenthesize_ok acc iop hiops
            obtain ⟨F, hF, hsem⟩ := ihr (.binary iop p l) hbr hcr
            have hiop' : iop = BinOp.sub := by
              simpa [inverse_bin_op] using hiop.symm
            subst hiop'
            refine ⟨F, ?_, ?_⟩
            · simp only [parse_expr, hchl', hchr', inverse_bin_op, hp, PResult.bind_ok,
                build_expr_binary]
              exact hF
            · intro v envT w he u hu
              obtain ⟨wl, wr, hel, her, hOp⟩ := evalQ_binary_some _ _ l r w he
              obtain ⟨a2, ha2, himp⟩ := hsem v envT wr her u hu
              obtain ⟨aP, bL, hAP, hBL, hOp2⟩ := evalQ_binary_some envT _ p l a2 ha2
              have haccA : evalQ envT acc = some aP := by
                rw [← hpe envT]; exact hAP
              have hbl_eq : bL = wl := by
                rw [closed_eval sf l hbl hcl envT (envFor sf v), hel] at hBL
                exact (Option.some.inj hBL).symm
              refine ⟨aP, haccA, fun haw => himp ?_⟩
              rw [hbl_eq] at hOp2
              exact inv_right_comm (by simp [inverse_bin_op]) (Or.inl rfl) hOp hOp2 haw
        | mul =>
            obtain ⟨p, hp, hpe, hpc⟩ := parenthesize_ok acc iop hiops
            obtain ⟨F, hF, hsem⟩ := ihr (.binary iop p l) hbr hcr
            have hiop' : iop = BinOp.div := by
              simpa [inverse_bin_op] using hiop.symm
            subst hiop'
            refine ⟨F, ?_, ?_⟩
            · simp only [parse_expr, hchl', hchr', inverse_bin_op, hp, PResult.bind_ok,
                build_expr_binary]
              exact hF
            · intro v envT w he u hu
              obtain ⟨wl, wr, hel, her, hOp⟩ := evalQ_binary_some _ _ l r w he
              obtain ⟨a2, ha2, himp⟩ := hsem v envT wr her u hu
              obtain ⟨aP, bL, hAP, hBL, hOp2⟩ := evalQ_binary_some envT _ p l a2 ha2
              have haccA : evalQ envT acc = some aP := by
                rw [← hpe envT]; exact hAP
              have hbl_eq : bL = wl := by
                rw [closed_eval sf l hbl hcl envT (envFor sf v), hel] at hBL
                exact (Option.some.inj hBL).symm
              refine ⟨aP, haccA, fun haw => himp ?_⟩
              rw [hbl_eq] at hOp2
              exact inv_right_comm (by simp [inverse_bin_op]) (Or.inr rfl) hOp hOp2 haw
        | sub =>
            obtain ⟨p, hp, hpe, hpc⟩ := parenthesize_ok acc BinOp.sub hop
            obtain ⟨F, hF, hsem⟩ := ihr (.binary .sub l p) hbr hcr
            refine ⟨F, ?_, ?_⟩
            · simp only [parse_expr, hchl', hchr', inverse_bin_op, hp, PResult.bind_ok,
                build_expr_binary]
              exact hF
            · intro v envT w he u hu
              obtain ⟨wl, wr, hel, her, hOp⟩ := evalQ_binary_some _ _ l r w he
              obtain ⟨a2, ha2, himp⟩ := hsem v envT wr her u hu
              obtain ⟨aL, bP, hAL, hBP, hOp2⟩ := evalQ_binary_some envT _ l p a2 ha2
              have haccA : evalQ envT acc = some bP := by
                rw [← hpe envT]; exact hBP
              have hal_eq : aL = wl := by
                rw [closed_eval sf l hbl hcl envT (envFor sf v), hel] at hAL
                exact (Option.some.inj hAL).symm
              refine ⟨bP, haccA, fun haw => himp ?_⟩
              rw [hal_eq] at hOp2
              exact inv_right_noncomm (Or.inl rfl) hOp hOp2 haw
        | div =>
            obtain ⟨p, hp, hpe, hpc⟩ := parenthesize_ok acc BinOp.div hop
            obtain ⟨F, hF, hsem⟩ := ihr (.binary .div l p) hbr hcr
            refine ⟨F, ?_, ?_⟩
            · simp only [parse_expr, hchl', hchr', inverse_bin_op, hp, PResult.bind_ok,
                build_expr_binary]
              exact hF
            · intro v envT w he u hu
              obtain ⟨wl, wr, hel, her, hOp⟩ := evalQ_binary_some _ _ l r w he
              obtain ⟨a2, ha2, himp⟩ := hsem v envT wr her u hu
              obtain ⟨aL, bP, hAL, hBP, hOp2⟩ := evalQ_binary_some envT _ l p a2 ha2
              have haccA : evalQ envT acc = some bP := by
                rw [← hpe envT]; exact hBP
              have hal_eq : aL = wl := by
                rw [closed_eval sf l hbl hcl envT (envFor sf v), hel] at hAL
                exact (Option.some.inj hAL).symm
              refine ⟨bP, haccA, fun haw => himp ?_⟩
              rw [hal_eq] at hOp2
              exact inv_right_noncomm (Or.inr rfl) hOp hOp2 haw

/-- Core of the Multiple error path: on a validated input whose operators
are all supported, two or more occurrences of the unknown always end in
the `Multiple` error, from any accumulator. -/
theorem parse_multiple (sf : String) :
    ∀ e : Expr, ∀ acc : Expr, opsOK e = true → 2 ≤ countOcc sf e →
      parse_expr sf acc e = .err .multiple := by
  intro e
  induction e with
  | lit n => intro acc ho hc; simp [countOcc] at hc
  | paren e ih => intro acc ho hc; simp [opsOK] at ho
  | unary e ih => intro acc ho hc; simp [opsOK] at ho
  | path s =>
      intro acc ho hc
      by_cases h : s = sf <;> simp [countOcc, h] at hc
  | binary op l r ihl ihr =>
      intro acc ho hc
      have ho' : (BinOp.supported op = true ∧ opsOK l = true) ∧ opsOK r = true := by
        simpa [opsOK, Bool.and_eq_true] using ho
      obtain ⟨⟨hop, hol⟩, hor⟩ := ho'
      have hcc : 2 ≤ countOcc sf l + countOcc sf r := by simpa [countOcc] using hc
      have hchl := contains_ok sf l (opsOK_validate l hol)
      have hchr := contains_ok sf r (opsOK_validate r hor)
      obtain ⟨iop, hiop, hiops⟩ := inverse_of_supported op hop
      rcases Nat.lt_or_ge 0 (countOcc sf l) with h1 | h1
      · rcases Nat.lt_or_ge 0 (countOcc sf r) with h2 | h2
        · -- both sides contain the unknown
          have hchl' : check_contains_target l sf = .ok true := by
            rw [hchl]; simp [h1]
          have hchr' : check_contains_target r sf = .ok true := by
            rw [hchr]; simp [h2]
          simp only [parse_expr, hchl', hchr', hiop, PResult.bind_ok]
        · -- all occurrences are in the left child
          have hcr : countOcc sf r = 0 := by omega
          have hchl' : check_contains_target l sf = .ok true := by
            rw [hchl]; simp [h1]
          have hchr' : check_contains_target r sf = .ok false := by
            rw [hchr, hcr]; norm_num
          obtain ⟨p, hp, hpe, hpc⟩ := parenthesize_ok acc iop hiops
          simp only [parse_expr, hchl', hchr', hiop, hp, PResult.bind_ok,
            build_expr_binary]
          exact ihl _ hol (by omega)
      · -- all occurrences are in the right child
        have hcl : countOcc sf l = 0 := by omega
        have hchl' : check_contains_target l sf = .ok false := by
          rw [hchl, hcl]; norm_num
        have hchr' : check_contains_target r sf = .ok true := by
          rw [hchr]; simp; omega
        cases op with
        | other => simp [BinOp.supported] at hop
        | add =>
            obtain ⟨p, hp, hpe, hpc⟩ := parenthesize_ok acc iop hiops
            have hiop' : iop = BinOp.sub := by simpa [inverse_bin_op] using hiop.symm
            subst hiop'
            simp only [parse_expr, hchl', hchr', inverse_bin_op, hp, PResult.bind_ok,
              build_expr_binary]
            exact ihr _ hor (by omega)
        | mul =>
            obtain ⟨p, hp, hpe, hpc⟩ := parenthesize_ok acc iop hiops
            have hiop' : iop = BinOp.div := by simpa [inverse_bin_op] using hiop.symm
            subst hiop'
            simp only [parse_expr, hchl', hchr', inverse_bin_op, hp, PResult.bind_ok,
              build_expr_binary]
            exact ihr _ hor (by omega)
        | sub =>
            obtain ⟨p, hp, hpe, hpc⟩ := parenthesize_ok acc BinOp.sub hop
            simp only [parse_expr, hchl', hchr', inverse_bin_op, hp, PResult.bind_ok,
              build_expr_binary]
            exact ihr _ hor (by omega)
        | div =>
            obtain ⟨p, hp, hpe, hpc⟩ := parenthesize_ok acc BinOp.div hop
            simp only [parse_expr, hchl', hchr', inverse_bin_op, hp, PResult.bind_ok,
              build_expr_binary]
            exact ihr _ hor (by omega)

/-- The inversion never duplicates identifiers that do not occur in the
input: on success, the final accumulator has exactly as many occurrences
of `t` as the initial accumulator, provided `t` does not occur in the
input expression. -/
theorem parse_count (sf t : String) :
    ∀ e : Expr, ∀ acc F : Expr, countOcc t e = 0 →
      parse_expr sf acc e = .ok F → countOcc t F = countOcc t acc := by
  intro e
  induction e with
  | lit n => intro acc F hc hF; simp [parse_expr] at hF
  | paren e ih => intro acc F hc hF; simp [parse_expr] at hF
  | unary e ih => intro acc F hc hF; simp [parse_expr] at hF
  | path s =>
      intro acc F hc hF
      simp only [parse_expr] at hF
      split at hF
      · cases hF
        rfl
      · cases hF
  | binary op l r ihl ihr =>
      intro acc F hc hF
      have hcl : countOcc t l = 0 ∧ countOcc t r = 0 := by
        constructor <;> (simp [countOcc] at hc; omega)
      simp only [parse_expr] at hF
      cases hchl : check_contains_target l sf with
      | err er => rw [hchl] at hF; simp [PResult.bind] at hF
      | unimpl => rw [hchl] at hF; simp [PResult.bind] at hF
      | ok cl =>
        rw [hchl] at hF
        simp only [PResult.bind_ok] at hF
        cases hchr : check_contains_target r sf with
        | err er => rw [hchr] at hF; simp [PResult.bind] at hF
        | unimpl => rw [hchr] at hF; simp [PResult.bind] at hF
        | ok cr =>
          rw [hchr] at hF
          simp only [PResult.bind_ok] at hF
          cases hiop : inverse_bin_op op with
          | err er => rw [hiop] at hF; simp [PResult.bind] at hF
          | unimpl => rw [hiop] at hF; simp [PResult.bind] at hF
          | ok iop =>
            rw [hiop] at hF
            simp only [PResult.bind_ok] at hF
            cases cl <;> cases cr
            · simp at hF
            · -- (false, true): dispatch on the original operator
              cases op with
              | other => simp at hF
              | add =>
                  cases hp : parenthesize acc iop with
                  | err er => rw [hp] at hF; simp [PResult.bind] at hF
                  | unimpl => rw [hp] at hF; simp [PResult.bind] at hF
                  | ok p =>
                      rw [hp] at hF
                      simp only [PResult.bind_ok, build_expr_binary] at hF
                      rw [ihr _ _ hcl.2 hF]
                      simp [countOcc, hcl.1, parenthesize_count t acc p iop hp]
              | mul =>
                  cases hp : parenthesize acc iop with
                  | err er => rw [hp] at hF; simp [PResult.bind] at hF
                  | unimpl => rw [hp] at hF; simp [PResult.bind] at hF
                  | ok p =>
                      rw [hp] at hF
                      simp only [PResult.bind_ok, build_expr_binary] at hF
                      rw [ihr _ _ hcl.2 hF]
                      simp [countOcc, hcl.1, parenthesize_count t acc p iop hp]
              | sub =>
                  cases hp : parenthesize acc BinOp.sub with
                  | err er => rw [hp] at hF; simp [PResult.bind] at hF
                  | unimpl => rw [hp] at hF; simp [PResult.bind] at hF
                  | ok p =>
                      rw [hp] at hF
                      simp only [PResult.bind_ok, build_expr_binary] at hF
                      rw [ihr _ _ hcl.2 hF]
                      simp [countOcc, hcl.1, parenthesize_count t acc p BinOp.sub hp]
              | div =>
                  cases hp : parenthesize acc BinOp.div with
                  | err er => rw [hp] at hF; simp [PResult.bind] at hF
                  | unimpl => rw [hp] at hF; simp [PResult.bind] at hF
                  | ok p =>
                      rw [hp] at hF
                      simp only [PResult.bind_ok, build_expr_binary] at hF
                      rw [ihr _ _ hcl.2 hF]
                      simp [countOcc, hcl.1, parenthesize_count t acc p BinOp.div hp]
            · -- (true, false)
              cases hp : parenthesize acc iop with
              | err er => rw [hp] at hF; simp [PResult.bind] at hF
              | unimpl => rw [hp] at hF; simp [PResult.bind] at hF
              | ok p =>
                  rw [hp] at hF
                  simp only [PResult.bind_ok, build_expr_binary] at hF
                  rw [ihl _ _ hcl.1 hF]
                  simp [countOcc, hcl.2, parenthesize_count t acc p iop hp]
            · simp at hF

/-- Lifting a finished library outcome into the fuelled computation. -/
theorem liftP_some {α β : Type} (x : PResult α) (f : α → Option (PResult β))
    (g : α → PResult β) (h : ∀ a, f a = some (g a)) :
    liftP x f = some (PResult.bind x g) := by
  cases x <;> simp [liftP, PResult.bind, h]

/-- With fuel exceeding the depth of the input tree, the fuelled variant
of the inversion finishes and agrees with `parse_expr`: the recursion
depth of the inversion is bounded by the depth of the input. -/
theorem parse_fuel (sf : String) :
    ∀ e : Expr, ∀ fuel : Nat, depth e < fuel → ∀ acc : Expr,
      parseExprFuel sf fuel acc e = some (parse_expr sf acc e) := by
  intro e
  induction e with
  | lit n =>
      intro fuel hf acc
      cases fuel with
      | zero => omega
      | succ k => simp [parseExprFuel, parse_expr]
  | path s =>
      intro fuel hf acc
      cases fuel with
      | zero => omega
      | succ k => simp [parseExprFuel, parse_expr]
  | paren e ih =>
      intro fuel hf acc
      cases fuel with
      | zero => omega
      | succ k => simp [parseExprFuel, parse_expr]
  | unary e ih =>
      intro fuel hf acc
      cases fuel with
      | zero => omega
      | succ k => simp [parseExprFuel, parse_expr]
  | binary op l r ihl ihr =>
      intro fuel hf acc
      cases fuel with
      | zero => omega
      | succ k =>
        have hdl : depth l < k := by
          have := Nat.le_max_left (depth l) (depth r)
          simp [depth] at hf
          omega
        have hdr : depth r < k := by
          have := Nat.le_max_right (depth l) (depth r)
          simp [depth] at hf
          omega
        simp only [parseExprFuel, parse_expr]
        apply liftP_some
        intro cl
        apply liftP_some
        intro cr
        apply liftP_some
        intro iop
        cases cl <;> cases cr
        · rfl
        · cases op
          · apply liftP_some
            intro p
            exact ihr k hdr _
          · apply liftP_some
            intro p
            exact ihr k hdr _
          · apply liftP_some
            intro p
            exact ihr k hdr _
          · apply liftP_some
            intro p
            exact ihr k hdr _
          · rfl
        · apply liftP_some
          intro p
          exact ihl k hdl _
        · rfl

/-! Claims. -/

/-- CLAIM C2: for every binary node where only the right child contains
the solve_for variable and the operator is Sub or Div, the new
accumulator is built as `left op (parenthesized accumulator)` — original
operator and original left operand kept, the parenthesized current
accumulator as the right operand — and recursion descends into the right
child. -/
theorem parse_expr_right_noncomm (sf : String) (acc p l r : Expr) (op : BinOp)
    (hl : check_contains_target l sf = .ok false)
    (hr : check_contains_target r sf = .ok true)
    (hop : op = .sub ∨ op = .div)
    (hp : parenthesize acc op = .ok p) :
    parse_expr sf acc (.binary op l r) = parse_expr sf (.binary op l p) r := by
  rcases hop with hop | hop <;> subst hop <;>
    simp [parse_expr, hl, hr, inverse_bin_op, hp, build_expr_binary]

/-- Witness for C2 at a concrete input. -/
theorem parse_expr_right_noncomm_witness :
    parse_expr "a" (.path "t") (.binary .sub (.lit 1) (.path "a")) =
      parse_expr "a" (.binary .sub (.lit 1) (.path "t")) (.path "a") :=
  parse_expr_right_noncomm "a" (.path "t") (.path "t") (.lit 1) (.path "a") .sub
    (by decide) (by decide) (Or.inl rfl) (by decide)

/-- Counterexample to C3 as stated: the input `a + c` contains the free
identifier `c`, different from the solve_for variable `a`, yet `solve`
succeeds (the foreign identifier sits in a branch that never gets
visited), instead of failing with `UnexpectedIdentifier`. -/
theorem solve_unexpected_identifier_cex :
    solve "a" "t" (.binary .add (.path "a") (.path "c")) =
      .ok ⟨"t", .binary .sub (.path "t") (.path "c")⟩ ∧
    solve "a" "t" (.binary .add (.path "a") (.path "c")) ≠
      .err .unexpectedIdentifier := by
  decide

/-- CLAIM C3 (amended): `solve` fails with `UnexpectedIdentifier` when the
input expression is itself a bare identifier different from the solve_for
variable; a foreign identifier strictly inside a larger tree does not
trigger this error. -/
theorem solve_unexpected_identifier (sf tgt name : String) (h : name ≠ sf) :
    solve sf tgt (.path name) = .err .unexpectedIdentifier := by
  simp [solve, validate_expr, parse_expr, parse_path, h]

/-- Witness for C3 (amended) at a concrete input. -/
theorem solve_unexpected_identifier_witness :
    solve "a" "t" (.path "c") = .err .unexpectedIdentifier :=
  solve_unexpected_identifier "a" "t" "c" (by decide)

/-- Counterexample to C4 as stated: the input `c` passes validation and
contains zero occurrences of the solve_for variable `a`, but `solve`
fails with `UnexpectedIdentifier`, not `NoSolveFor`. -/
theorem solve_no_solve_for_cex :
    validate_expr (.path "c") = true ∧ countOcc "a" (.path "c") = 0 ∧
    solve "a" "t" (.path "c") = .err .unexpectedIdentifier ∧
    solve "a" "t" (.path "c") ≠ .err .noSolveFor := by
  decide

/-- CLAIM C4 (amended): for every validated input whose root is a binary
node with a supported operator and in which the solve_for variable occurs
zero times, `solve` fails with `NoSolveFor`.  (A bare foreign identifier
fails with `UnexpectedIdentifier` instead, a bare literal panics, and an
unsupported root operator fails with `BinOp`, so the restriction to
supported binary roots is necessary.) -/
theorem solve_no_solve_for (sf tgt : String) (op : BinOp) (l r : Expr)
    (hv : validate_expr (.binary op l r) = true)
    (hop : op.supported = true)
    (h0 : countOcc sf (.binary op l r) = 0) :
    solve sf tgt (.binary op l r) = .err .noSolveFor := by
  have hv' : validate_expr l = true ∧ validate_expr r = true := by
    simpa [validate_expr, Bool.and_eq_true] using hv
  have hcl : countOcc sf l = 0 := by simp [countOcc] at h0; omega
  have hcr : countOcc sf r = 0 := by simp [countOcc] at h0; omega
  have hchl : check_contains_target l sf = .ok false := by
    rw [contains_ok sf l hv'.1, hcl]; norm_num
  have hchr : check_contains_target r sf = .ok false := by
    rw [contains_ok sf r hv'.2, hcr]; norm_num
  obtain ⟨iop, hiop, _⟩ := inverse_of_supported op hop
  simp [solve, hv, parse_expr, hchl, hchr, hiop]

/-- Witness for C4 (amended) at a concrete input. -/
theorem solve_no_solve_for_witness :
    solve "a" "t" (.binary .add (.lit 1) (.lit 2)) = .err .noSolveFor :=
  solve_no_solve_for "a" "t" .add (.lit 1) (.lit 2) (by decide) (by decide) (by decide)

/-- Counterexample to C5 as stated: the input `a % a` (an unsupported
operator with two occurrences of `a`) passes validation, but `solve`
fails with `BinOp`, not `Multiple`, because the operator-inversion table
is consulted before the containment dispatch. -/
theorem solve_multiple_cex :
    validate_expr (.binary .other (.path "a") (.path "a")) = true ∧
    countOcc "a" (.binary .other (.path "a") (.path "a")) = 2 ∧
    solve "a" "t" (.binary .other (.path "a") (.path "a")) = .err .binOp ∧
    solve "a" "t" (.binary .other (.path "a") (.path "a")) ≠ .err .multiple := by
  decide

/-- CLAIM C5 (amended): for every input expression whose operators are
all in the supported set and in which the solve_for variable occurs two
or more times, `solve` fails with `Multiple`. -/
theorem solve_multiple (sf tgt : String) (e : Expr)
    (ho : opsOK e = true) (h2 : 2 ≤ countOcc sf e) :
    solve sf tgt e = .err .multiple := by
  have hv := opsOK_validate e ho
  simp [solve, hv, parse_multiple sf e (.path tgt) ho h2]

/-- Witness for C5 (amended) at a concrete input. -/
theorem solve_multiple_witness :
    solve "a" "t" (.binary .add (.path "a") (.path "a")) = .err .multiple :=
  solve_multiple "a" "t" (.binary .add (.path "a") (.path "a")) (by decide) (by decide)

/-- Counterexample to C7 as stated: with a literal accumulator and an
unsupported wrapping operator, `parenthesize` succeeds (returning the
accumulator unchanged) rather than failing with `BinOp`. -/
theorem parenthesize_cases_cex :
    parenthesize (.lit 5) .other = .ok (.lit 5) ∧
    parenthesize (.lit 5) .other ≠ .err .binOp := by
  decide

/-- CLAIM C7 (amended): `parenthesize` returns a literal or bare-path
accumulator unchanged whatever the wrapping operator; it wraps a
composite accumulator in a grouping node iff the wrapping operator is
Mul or Div; and it fails with `BinOp` exactly when the accumulator is
composite and the wrapping operator is outside the supported set. -/
theorem parenthesize_cases (e : Expr) (op : BinOp) :
    (isLeafAcc e = true → parenthesize e op = .ok e) ∧
    (isLeafAcc e = false → (op = .add ∨ op = .sub) → parenthesize e op = .ok e) ∧
    (isLeafAcc e = false → (op = .mul ∨ op = .div) → parenthesize e op = .ok (.paren e)) ∧
    (isLeafAcc e = false → op = .other → parenthesize e op = .err .binOp) := by
  cases e <;> cases op <;> simp [isLeafAcc, parenthesize]

/-- Witness for C7 (amended) at a concrete input. -/
theorem parenthesize_cases_witness :
    parenthesize (.binary .add (.lit 1) (.lit 2)) .other = .err .binOp :=
  (parenthesize_cases (.binary .add (.lit 1) (.lit 2)) .other).2.2.2 (by decide) rfl

/-- CLAIM C8: the operator-inversion table is the pure map Add to Sub,
Sub to Add, Mul to Div, Div to Mul, and every other operator fails with
`BinOp`. -/
theorem inverse_bin_op_table :
    inverse_bin_op .add = .ok .sub ∧ inverse_bin_op .sub = .ok .add ∧
    inverse_bin_op .mul = .ok .div ∧ inverse_bin_op .div = .ok .mul ∧
    ∀ op : BinOp, op.supported = false → inverse_bin_op op = .err .binOp := by
  refine ⟨rfl, rfl, rfl, rfl, ?_⟩
  intro op h
  cases op <;> simp_all [BinOp.supported, inverse_bin_op]

/-- Witness for C8 at the unsupported operator. -/
theorem inverse_bin_op_table_witness :
    inverse_bin_op .other = .err .binOp :=
  inverse_bin_op_table.2.2.2.2 .other (by decide)

/-- Counterexample to C1 as stated: on `a * 0` (one occurrence of `a`,
supported operators, literals only) `solve` succeeds with inverse body
`t / 0`; the original expression evaluates to 0 at `a = 3`, but the
inverse evaluated at 0 is undefined even under exact rational semantics
(division by zero, not integer truncation), so no value is recovered. -/
theorem solve_round_trip_cex :
    solve "a" "t" (.binary .mul (.path "a") (.lit 0)) =
      .ok ⟨"t", .binary .div (.path "t") (.lit 0)⟩ ∧
    evalQ (envFor "a" 3) (.binary .mul (.path "a") (.lit 0)) = some 0 ∧
    evalQ (envFor "t" 0) (.binary .div (.path "t") (.lit 0)) = none := by
  refine ⟨by decide, ?_, ?_⟩ <;> norm_num [evalQ, envFor, opApply]

/-- CLAIM C1 (amended): for every expression built only from literals,
operators in the supported set, and exactly one occurrence of the
solve_for variable, `solve` succeeds; and for every assignment `v`, if
the original expression evaluates exactly (over the rationals) to `w`
and the returned inverse body evaluates at `w` to some value `u`, then
`u = v`.  The definedness of the inverse evaluation must be assumed: a
division by zero can arise in the inverse (for example from
multiplication by the constant 0), in which case nothing is
recovered. -/
theorem solve_round_trip (sf tgt : String) (e : Expr)
    (hb : builtFrom sf e = true) (hc : countOcc sf e = 1) :
    (∃ F, solve sf tgt e = .ok ⟨tgt, F⟩) ∧
    ∀ (F : Expr) (v w u : ℚ), solve sf tgt e = .ok ⟨tgt, F⟩ →
      evalQ (envFor sf v) e = some w →
      evalQ (envFor tgt w) F = some u → u = v := by
  have hval := builtFrom_validate sf e hb
  obtain ⟨F0, hF0, hsem⟩ := parse_sound sf e (.path tgt) hb hc
  constructor
  · exact ⟨F0, by simp [solve, hval, hF0]⟩
  · intro F v w u hs he hu
    have hFF : F0 = F := by
      simp [solve, hval, hF0] at hs
      exact hs
    subst hFF
    obtain ⟨a, ha, himp⟩ := hsem v (envFor tgt w) w he u hu
    have haw : a = w := by
      simp [evalQ, envFor] at ha
      exact ha.symm
    exact himp haw

/-- Witness for C1 (amended): inverting `a + 2`, evaluating the original
at 3 gives 5, and the inverse at 5 gives back 3. -/
theorem solve_round_trip_witness : (3 : ℚ) = 3 :=
  (solve_round_trip "a" "t" (.binary .add (.path "a") (.lit 2))
      (by decide) (by decide)).2
    (.binary .sub (.path "t") (.lit 2)) 3 5 3 (by decide)
    (by norm_num [evalQ, envFor, opApply])
    (by norm_num [evalQ, envFor, opApply])

/-- CLAIM C6: the validator returns true iff every reachable node is a
literal, a variable, or a binary operation with valid children; and
whenever it returns false, `solve` fails with the `Validation` error
without any rewriting. -/
theorem validate_expr_correct :
    (∀ e : Expr, validate_expr e = true ↔ ValidSpec e) ∧
    (∀ (sf tgt : String) (e : Expr), validate_expr e = false →
      solve sf tgt e = .err .validation) := by
  constructor
  · intro e
    induction e with
    | lit n =>
        simp only [validate_expr, true_iff]
        exact .lit n
    | path s =>
        simp only [validate_expr, true_iff]
        exact .path s
    | binary op l r ihl ihr =>
        simp only [validate_expr, Bool.and_eq_true, ihl, ihr]
        constructor
        · rintro ⟨h1, h2⟩
          exact .binary op l r h1 h2
        · rintro h
          cases h with
          | binary op l r h1 h2 => exact ⟨h1, h2⟩
    | paren e ih =>
        simp only [validate_expr, Bool.false_eq_true, false_iff]
        intro h
        cases h
    | unary e ih =>
        simp only [validate_expr, Bool.false_eq_true, false_iff]
        intro h
        cases h
  · intro sf tgt e hval
    simp [solve, hval]

/-- Witness for C6 at a concrete unsupported node. -/
theorem validate_expr_correct_witness :
    validate_expr (.unary (.lit 1)) = false ∧
    solve "a" "t" (.unary (.lit 1)) = .err .validation :=
  ⟨by decide, validate_expr_correct.2 "a" "t" (.unary (.lit 1)) (by decide)⟩

/-- CLAIM C9: the recursive inversion terminates on every input tree,
with recursion depth bounded by the depth of the input: the fuelled
variant of `parse_expr`, which consumes one unit of fuel per recursive
call, finishes and agrees with `parse_expr` whenever the fuel exceeds
the input's depth. -/
theorem parse_expr_terminates (sf : String) (e acc : Expr) (fuel : Nat)
    (hf : depth e < fuel) :
    parseExprFuel sf fuel acc e = some (parse_expr sf acc e) :=
  parse_fuel sf e fuel hf acc

/-- Witness for C9 at a concrete input. -/
theorem parse_expr_terminates_witness :
    parseExprFuel "a" 2 (.path "t") (.binary .add (.path "a") (.lit 1)) =
      some (parse_expr "a" (.path "t") (.binary .add (.path "a") (.lit 1))) :=
  parse_expr_terminates "a" (.binary .add (.path "a") (.lit 1)) (.path "t") 2 (by decide)

/-- Counterexample to C10 as stated: when the input itself mentions the
target placeholder identifier (`a + b` with placeholder `b`, exactly the
identifiers the derive layer uses), `solve` succeeds but the returned
body contains the placeholder twice. -/
theorem solve_target_once_cex :
    solve "a" "b" (.binary .add (.path "a") (.path "b")) =
      .ok ⟨"b", .binary .sub (.path "b") (.path "b")⟩ ∧
    countOcc "b" (.binary .sub (.path "b") (.path "b")) = 2 := by
  decide

/-- CLAIM C10 (amended): whenever `solve` succeeds on an input that does
not mention the target placeholder identifier, the body of the returned
closure contains the placeholder exactly once. -/
theorem solve_target_once (sf tgt : String) (e : Expr) (c : ClosureOut)
    (h0 : countOcc tgt e = 0) (hs : solve sf tgt e = .ok c) :
    countOcc tgt c.body = 1 := by
  by_cases hv : validate_expr e = true
  · simp only [solve, hv, if_true] at hs
    cases hF : parse_expr sf (.path tgt) e with
    | err er => rw [hF] at hs; simp [PResult.bind] at hs
    | unimpl => rw [hF] at hs; simp [PResult.bind] at hs
    | ok F =>
        rw [hF] at hs
        simp only [PResult.bind_ok, PResult.ok.injEq] at hs
        have hcount := parse_count sf tgt e (.path tgt) F h0 hF
        rw [← hs]
        simp [hcount, countOcc]
  · have hv' : validate_expr e = false := by simpa using hv
    simp [solve, hv'] at hs

/-- Witness for C10 (amended) at a concrete input. -/
theorem solve_target_once_witness :
    countOcc "b" (ClosureOut.body ⟨"b", .binary .sub (.path "b") (.lit 2)⟩) = 1 :=
  solve_target_once "a" "b" (.binary .add (.path "a") (.lit 2))
    ⟨"b", .binary .sub (.path "b") (.lit 2)⟩ (by decide) (by decide)
